import Mathlib

/-!
Verification of `src/sage/combinat/root_system/fast_parallel_fmats_methods.pyx`.

This file is a shallow embedding of the parallel F-matrix worker module.
Each worker receives a pair `(child_id, n_proc)` and processes exactly the
positions `i` of a lazily enumerated Cartesian power of the basis with
`i % n_proc == child_id`.  The algebraic capabilities of the factory object
(basis enumeration, fusion multiplicities `Nk_ij`, R-matrix scalars, the
sparse table of F-symbol variables) are modelled as fields of a `Factory`
structure; the polynomial-tuple engine (an external module of the same
repository, not part of the sources verified here) is modelled from the
specification where a claim needs it.
-/

namespace FastFMats

/-- Lexicographic enumeration of the n-fold Cartesian power of a basis list,
in the order produced by the Python expression product(basis, repeat=n)
used by get_reduced_hexagons, get_reduced_pentagons and pent_verify:
the leftmost component varies slowest. -/
def tuples (l : List α) : ℕ → List (List α)
  | 0 => [[]]
  | n + 1 => l.flatMap fun x => (tuples l n).map (fun t => x :: t)

/-- The per-worker index set of the round-robin striping used in
get_reduced_hexagons (line 100) and get_reduced_pentagons (line 132):
position i of the enumerated index space belongs to worker child_id
exactly when i mod n_proc == child_id. -/
def assign (total n c : ℕ) : List ℕ :=
  (List.range total).filter (fun i => i % n == c)

/-- All index positions inspected by the worker loop: enumerate in the source
yields every position of the full index space. -/
def enumPositions (basis : List α) (rep : ℕ) : List ℕ :=
  ((tuples basis rep).enum).map Prod.fst

/-- The index positions at which the body of the worker loop actually runs
(those passing the residue filter), in loop order. -/
def bodyPositions (basis : List α) (rep n c : ℕ) : List ℕ :=
  (((tuples basis rep).enum).filter (fun p => p.1 % n == c)).map Prod.fst

theorem length_tuples (l : List α) (n : ℕ) :
    (tuples l n).length = l.length ^ n := by
  induction n with
  | zero => simp [tuples]
  | succ n ih =>
    have h : ∀ m : List α,
        (m.flatMap fun x => (tuples l n).map (fun t => x :: t)).length
          = m.length * (tuples l n).length := by
      intro m
      induction m with
      | nil => simp
      | cons a m ihm => simp [ihm, Nat.succ_mul, Nat.add_comm]
    simp [tuples, h l, ih, pow_succ, Nat.mul_comm]

/-- Claim C1: the round-robin index sets are, for every positive total size
and worker count, sorted in increasing order, characterized as the residue
class of the worker id below the total size, pairwise disjoint across
distinct worker ids, and their union over all worker ids in
[0, worker_count) is exactly {0, ..., total_size - 1}.  (The partition is a
pure function of (total, n), hence deterministic across runs.) -/
theorem assign_partition (total n : ℕ) (htotal : 0 < total) (hn : 0 < n) :
    (∀ c, List.Pairwise (· < ·) (assign total n c))
    ∧ (∀ c i, i ∈ assign total n c ↔ i < total ∧ i % n = c)
    ∧ (∀ c1 c2, c1 ≠ c2 → ∀ i, i ∈ assign total n c1 → i ∉ assign total n c2)
    ∧ (Finset.range n).biUnion (fun c => (assign total n c).toFinset)
        = Finset.range total := by
  have hmem : ∀ c i, i ∈ assign total n c ↔ i < total ∧ i % n = c := by
    intro c i
    simp [assign, List.mem_filter, List.mem_range]
  refine ⟨?_, hmem, ?_, ?_⟩
  · intro c
    exact (List.pairwise_lt_range total).filter _
  · intro c1 c2 hne i h1 h2
    exact hne (((hmem c1 i).1 h1).2 ▸ ((hmem c2 i).1 h2).2 ▸ rfl)
  · ext i
    simp only [Finset.mem_biUnion, Finset.mem_range, List.mem_toFinset]
    constructor
    · rintro ⟨c, _, hc⟩
      exact ((hmem c i).1 hc).1
    · intro hi
      exact ⟨i % n, Nat.mod_lt i hn, (hmem (i % n) i).2 ⟨hi, rfl⟩⟩

/-- Witness for C1 at (total, n) = (10, 3): the three workers get
{0,3,6,9}, {1,4,7}, {2,5,8}, a partition of {0,...,9}. -/
theorem assign_partition_witness :
    (0 < 10 ∧ 0 < 3)
    ∧ (Finset.range 3).biUnion (fun c => (assign 10 3 c).toFinset)
        = Finset.range 10
    ∧ assign 10 3 0 = [0, 3, 6, 9] :=
  ⟨⟨by decide, by decide⟩,
    (assign_partition 10 3 (by decide) (by decide)).2.2.2, by decide⟩

/-- The algebraic capabilities of the FMatrix factory object consumed by the
module, as abstract data: the basis list of factory.FR.basis(), the identity
element factory.FR.one(), the fusion multiplicity factory.FR.Nk_ij, the
R-matrix scalar factory.FR.r_matrix, and the sparse table factory._fvars of
symbolic F-symbol values with entries in a ring V. -/
structure Factory (α V : Type) where
  basis : List α
  one : α
  Nk : α → α → α → ℕ
  r_matrix : α → α → α → V
  fvars : α → α → α → α → α → α → V

variable {V : Type}

/-- Embedding of the cdef function _fmat (lines 50 to 72 of the source):
first the four fusion-multiplicity side conditions, then the three
identity-element short-circuits tested in the order a, b, c, and finally
the stored value of the sparse table. -/
def fmat [DecidableEq α] [Zero V] [One V]
    (F : Factory α V) (a b c d x y : α) : V :=
  if F.Nk a b x = 0 ∨ F.Nk x c d = 0 ∨ F.Nk b c y = 0 ∨ F.Nk a y d = 0 then 0
  else if a = F.one then (if x = b ∧ y = d then 1 else 0)
  else if b = F.one then (if x = a ∧ y = c then 1 else 0)
  else if c = F.one then (if x = d ∧ y = b then 1 else 0)
  else F.fvars a b c d x y

/-- Claim C2: the F-symbol lookup returns 0 whenever one of the four fusion
multiplicity side conditions vanishes, before anything else is tested; when
the side conditions hold and a, b or c is the identity (tested in this
order), it returns 1 exactly on the matching index pattern and 0 otherwise,
and it does so without reading the sparse value table (final conjunct:
replacing the table changes nothing in those cases); otherwise it returns
the stored table value. -/
theorem fmat_lookup [DecidableEq α] [Zero V] [One V]
    (F : Factory α V) (a b c d x y : α) :
    ((F.Nk a b x = 0 ∨ F.Nk x c d = 0 ∨ F.Nk b c y = 0 ∨ F.Nk a y d = 0) →
        fmat F a b c d x y = 0)
    ∧ (¬(F.Nk a b x = 0 ∨ F.Nk x c d = 0 ∨ F.Nk b c y = 0 ∨ F.Nk a y d = 0) →
        a = F.one →
        fmat F a b c d x y = if x = b ∧ y = d then 1 else 0)
    ∧ (¬(F.Nk a b x = 0 ∨ F.Nk x c d = 0 ∨ F.Nk b c y = 0 ∨ F.Nk a y d = 0) →
        a ≠ F.one → b = F.one →
        fmat F a b c d x y = if x = a ∧ y = c then 1 else 0)
    ∧ (¬(F.Nk a b x = 0 ∨ F.Nk x c d = 0 ∨ F.Nk b c y = 0 ∨ F.Nk a y d = 0) →
        a ≠ F.one → b ≠ F.one → c = F.one →
        fmat F a b c d x y = if x = d ∧ y = b then 1 else 0)
    ∧ (¬(F.Nk a b x = 0 ∨ F.Nk x c d = 0 ∨ F.Nk b c y = 0 ∨ F.Nk a y d = 0) →
        a ≠ F.one → b ≠ F.one → c ≠ F.one →
        fmat F a b c d x y = F.fvars a b c d x y)
    ∧ (∀ fv', (a = F.one ∨ b = F.one ∨ c = F.one) →
        fmat { F with fvars := fv' } a b c d x y = fmat F a b c d x y) := by
  refine ⟨?_, ?_, ?_, ?_, ?_, ?_⟩
  · intro h
    simp only [fmat]
    rw [if_pos h]
  · intro h ha
    simp only [fmat]
    rw [if_neg h, if_pos ha]
  · intro h ha hb
    simp only [fmat]
    rw [if_neg h, if_neg ha, if_pos hb]
  · intro h ha hb hc
    simp only [fmat]
    rw [if_neg h, if_neg ha, if_neg hb, if_pos hc]
  · intro h ha hb hc
    simp only [fmat]
    rw [if_neg h, if_neg ha, if_neg hb, if_neg hc]
  · intro fv' hcase
    simp only [fmat]
    split_ifs <;> first | rfl | (rcases hcase with h | h | h <;> tauto)

/-- Embedding of the cdef function req_cy (lines 74 to 85): the hexagon
equation polynomial for a sextuple of basis elements.  A list that does not
have exactly six entries never arises from the enumeration; it is mapped
to 0. -/
def req_cy [DecidableEq α] [CommRing V] (F : Factory α V) (s : List α) : V :=
  match s with
  | [a, b, c, d, e, g] =>
      F.r_matrix a c e * fmat F a c b d e g * F.r_matrix b c g
        - F.basis.foldl
            (fun acc f => acc +
              fmat F c a b d e f * F.r_matrix f c d * fmat F a b c d f g) 0
  | _ => 0

/-- The left hand side of the pentagon equation of a nonuple, as computed at
line 110 of the source. -/
def pentLhs [DecidableEq α] [CommRing V] (F : Factory α V) (s : List α) : V :=
  match s with
  | [a, b, c, d, e, f, g, k, l] => fmat F f c d e g l * fmat F a b l e f k
  | _ => 0

/-- Embedding of the cdef function feq_cy (lines 105 to 116): the pentagon
equation polynomial for a nonuple, with the pruning flag; when prune is set
and the left hand side vanishes, the zero polynomial is returned without
computing the right hand side.  The declared default of the prune argument
of feq_cy in the source is False, recorded in feq_cy_default_prune. -/
def feq_cy [DecidableEq α] [DecidableEq V] [CommRing V]
    (F : Factory α V) (s : List α) (prune : Bool) : V :=
  match s with
  | [a, b, c, d, e, f, g, k, l] =>
      let lhs := fmat F f c d e g l * fmat F a b l e f k
      if lhs = 0 ∧ prune = true then 0
      else lhs - F.basis.foldl
          (fun acc h => acc +
            fmat F a b c g f h * fmat F a h d e g k * fmat F b c d k h l) 0
  | _ => 0

/-- The declared default of the prune argument of feq_cy (line 105). -/
def feq_cy_default_prune : Bool := false

/-- The declared default of the prune argument of get_reduced_pentagons
(line 121 of the source). -/
def get_reduced_pentagons_default_prune : Bool := true

/-- Embedding of get_reduced_hexagons (lines 90 to 103).  The external
reduction reduce_poly_dict of the poly_tup_engine module, already applied
to the dict of the polynomial and to the nnz and ks attributes of the
factory, is passed as the opaque conversion rpd; the function returns the
list of results appended to worker_results, in loop order. -/
def get_reduced_hexagons [DecidableEq α] [DecidableEq V] [CommRing V]
    (F : Factory α V) (mp : ℕ × ℕ) (rpd : V → R) : List R :=
  (((tuples F.basis 6).enum).filter (fun p => p.1 % mp.2 == mp.1)).filterMap
    (fun p =>
      let he := req_cy F p.2
      if he ≠ 0 then some (rpd he) else none)

/-- Embedding of get_reduced_pentagons (lines 121 to 135), with the same
conventions as get_reduced_hexagons and the explicit prune flag. -/
def get_reduced_pentagons [DecidableEq α] [DecidableEq V] [CommRing V]
    (F : Factory α V) (mp : ℕ × ℕ) (rpd : V → R) (prune : Bool) : List R :=
  (((tuples F.basis 9).enum).filter (fun p => p.1 % mp.2 == mp.1)).filterMap
    (fun p =>
      let pe := feq_cy F p.2 prune
      if pe ≠ 0 then some (rpd pe) else none)

/-- A concrete two-element factory with integer values: every fusion
multiplicity is 1, the identity is the second basis element, and the only
vanishing stored F-symbol value is the one at the all-zero index. -/
def pentFactory : Factory (Fin 2) ℤ where
  basis := [0, 1]
  one := 1
  Nk := fun _ _ _ => 1
  r_matrix := fun _ _ _ => 1
  fvars := fun a b c d x y =>
    if a = 0 ∧ b = 0 ∧ c = 0 ∧ d = 0 ∧ x = 0 ∧ y = 0 then 0 else 1

/-- Witness for C2: at a concrete factory and index tuple with all side
conditions nonzero and no identity among a, b, c, the lookup returns the
stored table value. -/
theorem fmat_lookup_witness : fmat pentFactory 0 0 0 0 0 1 = 1 := by
  have h := (fmat_lookup pentFactory 0 0 0 0 0 1).2.2.2.2.1
    (by decide) (by decide) (by decide) (by decide)
  rw [h]
  decide

set_option maxRecDepth 8000 in
/-- Claim C3 counterexample: the pruning option of the pentagon generation
operation get_reduced_pentagons is not off by default.  Its declared
default is True, and at a concrete factory the default behaviour differs
from the prune-off behaviour: the all-zero nonuple (the single position
assigned to worker 0 of 512) has a vanishing left hand side but a nonzero
right hand side, so the default run skips it while the prune-off run
records one equation. -/
theorem get_reduced_pentagons_default_cex :
    get_reduced_pentagons_default_prune ≠ false
    ∧ get_reduced_pentagons pentFactory (0, 512) (fun _ => (0 : ℕ))
        get_reduced_pentagons_default_prune
      ≠ get_reduced_pentagons pentFactory (0, 512) (fun _ => (0 : ℕ)) false := by
  constructor
  · decide
  · decide

/-- Claim C3 as amended: the pruning heuristic is a configurable option of
the pentagon generation operation and is ON by default there (the declared
default of get_reduced_pentagons is prune = True, while the underlying
equation builder feq_cy declares prune = False); when the option is set and
the left hand side vanishes, the equation is returned as the zero
polynomial, hence contributes nothing to the worker results. -/
theorem get_reduced_pentagons_prune_spec [DecidableEq α] [DecidableEq V]
    [CommRing V] (F : Factory α V) (mp : ℕ × ℕ) (rpd : V → R) (t : List α) :
    get_reduced_pentagons F mp rpd get_reduced_pentagons_default_prune
      = get_reduced_pentagons F mp rpd true
    ∧ feq_cy F t feq_cy_default_prune = feq_cy F t false
    ∧ (pentLhs F t = 0 → feq_cy F t true = 0) := by
  refine ⟨rfl, rfl, ?_⟩
  intro h
  rcases t with _ | ⟨a, _ | ⟨b, _ | ⟨c, _ | ⟨d, _ | ⟨e, _ | ⟨f, _ |
    ⟨g, _ | ⟨k, _ | ⟨l, _ | ⟨m, r⟩⟩⟩⟩⟩⟩⟩⟩⟩⟩ <;>
    simp_all [feq_cy, pentLhs]

/-- Witness for the amended C3: at the concrete factory, the all-zero
nonuple has vanishing left hand side and is pruned to the zero
polynomial. -/
theorem get_reduced_pentagons_prune_spec_witness :
    feq_cy pentFactory [0, 0, 0, 0, 0, 0, 0, 0, 0] true = 0 :=
  (get_reduced_pentagons_prune_spec pentFactory (0, 512) (fun v => v)
      [0, 0, 0, 0, 0, 0, 0, 0, 0]).2.2 (by decide)

theorem map_fst_filter_fst (q : ℕ → Bool) :
    ∀ xs : List (ℕ × β),
      ((xs.filter (fun p => q p.1)).map Prod.fst) = (xs.map Prod.fst).filter q := by
  intro xs
  induction xs with
  | nil => rfl
  | cons x xs ih =>
    by_cases h : q x.1
    · simp [List.filter_cons, h, ih]
    · simp [List.filter_cons, h, ih]

/-- Claim C4 counterexample: the worker loop does enumerate positions
outside its own residue class.  With a two-element basis and worker 0 of 2,
position 1 (residue 1) is still inspected by the enumeration of
get_reduced_pentagons, because the source iterates enumerate over the full
Cartesian power and only then filters by the residue test. -/
theorem enum_positions_cex :
    1 ∈ enumPositions [(0 : Fin 2), 1] 9 ∧ ¬(1 % 2 = 0) := by
  constructor
  · decide
  · decide

/-- Claim C4 as amended: the worker loop enumerates every position of the
full index space (stepping the lexicographic product iterator position by
position, rather than unranking each assigned position in O(length)), and
the loop body runs exactly on the positions of the residue class of the
worker id, in increasing order. -/
theorem enum_positions_spec (basis : List α) (rep n c : ℕ) :
    enumPositions basis rep = List.range (basis.length ^ rep)
    ∧ bodyPositions basis rep n c = assign (basis.length ^ rep) n c := by
  constructor
  · rw [enumPositions, List.enum_map_fst, length_tuples]
  · rw [bodyPositions, assign,
      map_fst_filter_fst (fun i => i % n == c) ((tuples basis rep).enum),
      List.enum_map_fst, length_tuples]

/-- A monomial of the sparse equation representation: the exponent vector of
the variables, as used by the external poly_tup_engine module. -/
abbrev Monomial : Type := List ℕ

/-- An equation in canonical sparse form: an ordered sequence of
(monomial, coefficient) pairs; the zero polynomial is the empty sequence.
Coefficients of the external number field are modelled as rationals. -/
abbrev EqTup : Type := List (Monomial × ℚ)

/-- Merge a term into an equation, adding coefficients of equal monomials
(dictionary insertion). -/
def addTerm : EqTup → Monomial × ℚ → EqTup
  | [], t => [t]
  | (m, c) :: rest, t =>
      if m = t.1 then (m, c + t.2) :: rest else (m, c) :: addTerm rest t

/-- Modelled from the spec: the scalar contributed by substituting recorded
known values into a monomial (section 4.4 step 1); kp is the known-value
record of factory get_known_vals and compute_known_powers. -/
def monEval (kp : ℕ → Option ℚ) (m : Monomial) : ℚ :=
  m.enum.foldl
    (fun acc p =>
      match kp p.1 with
      | some v => acc * v ^ p.2
      | none => acc) 1

/-- Modelled from the spec: the residual monomial after substituting the
recorded known values (exponents of substituted variables drop to 0). -/
def monResidual (kp : ℕ → Option ℚ) (m : Monomial) : Monomial :=
  m.enum.map
    (fun p =>
      match kp p.1 with
      | some _ => 0
      | none => p.2)

/-- Modelled from the spec: subs of the external poly_tup_engine (not under
the verified sources): substitute every occurrence of a variable with its
recorded known value, collapsing the equation to a dictionary of merged
(monomial, coefficient) pairs. -/
def subs (eq : EqTup) (kp : ℕ → Option ℚ) : EqTup :=
  eq.foldl
    (fun acc t => addTerm acc (monResidual kp t.1, t.2 * monEval kp t.1)) []

/-- A monomial consisting of a single variable squared. -/
def isSqMon (m : Monomial) : Bool := (m.filter (fun e => e != 0)) == [2]

/-- The constant monomial. -/
def isConstMon (m : Monomial) : Bool := m.all (fun e => e == 0)

/-- Modelled from the spec: tup_fixes_sq of the external poly_tup_engine:
the substituted equation, viewed as (monomial, coefficient) pairs, has the
squared-variable-fix shape coefficient times x squared equals constant. -/
def tup_fixes_sq (eq : EqTup) : Bool :=
  match eq with
  | [(m1, _), (m2, _)] => isSqMon m1 && isConstMon m2
  | _ => false

/-- Modelled from the spec: to_monic of the external poly_tup_engine:
normalize the equation so that its leading coefficient is 1, dividing every
other coefficient by it. -/
def to_monic (eq : EqTup) : EqTup :=
  match eq with
  | [] => []
  | (m, c) :: rest => (m, 1) :: rest.map (fun t => (t.1, t.2 / c))

/-- Modelled from the spec: the contribution of recorded known squares to a
monomial (even powers of a variable with known square collapse to a
scalar). -/
def sqEval (ks : ℕ → Option ℚ) (m : Monomial) : ℚ :=
  m.enum.foldl
    (fun acc p =>
      match ks p.1 with
      | some s => acc * s ^ (p.2 / 2)
      | none => acc) 1

/-- Modelled from the spec: the residual monomial after substituting known
squares. -/
def sqResidual (ks : ℕ → Option ℚ) (m : Monomial) : Monomial :=
  m.enum.map
    (fun p =>
      match ks p.1 with
      | some _ => p.2 % 2
      | none => p.2)

/-- Modelled from the spec: reduce_poly_dict of the external
poly_tup_engine (section 4.4 step 3): strip monomials containing a variable
flagged zero (the complement of the known-nonzero record nnz), substitute
the known squares ks, and normalize to monic form. -/
def reduce_poly_dict (eq : EqTup) (nnz : ℕ → Bool) (ks : ℕ → Option ℚ) :
    EqTup :=
  to_monic
    ((eq.filter
        (fun t => t.1.enum.all (fun p => p.2 == 0 || nnz p.1))).foldl
      (fun acc t => addTerm acc (sqResidual ks t.1, t.2 * sqEval ks t.1)) [])

/-- Embedding of update_reduce (lines 138 to 149 of the source), over the
spec-modelled engine above: substitute known values and powers, test the
squared-variable-fix shape, and normalize directly to monic form on that
fast path, otherwise reduce generically; the result is appended to the
worker results buffer. -/
def update_reduce (kp : ℕ → Option ℚ) (nnz : ℕ → Bool) (ks : ℕ → Option ℚ)
    (eq_tup : EqTup) (buf : List EqTup) : List EqTup :=
  let eq_dict := subs eq_tup kp
  let reduced :=
    if tup_fixes_sq eq_dict then to_monic eq_dict
    else reduce_poly_dict eq_dict nnz ks
  buf ++ [reduced]

/-- Claim C5: update_reduce first substitutes the recorded known values and
powers; the squared-variable-fix shape is then tested on the substituted
equation before any generic reduction, and on that shape the equation is
normalized directly to monic form, otherwise the generic reduction is
applied; in particular the appended result depends on the input equation
only through its substituted form. -/
theorem update_reduce_spec (kp : ℕ → Option ℚ) (nnz : ℕ → Bool)
    (ks : ℕ → Option ℚ) (eq : EqTup) (buf : List EqTup) :
    (tup_fixes_sq (subs eq kp) = true →
        update_reduce kp nnz ks eq buf = buf ++ [to_monic (subs eq kp)])
    ∧ (tup_fixes_sq (subs eq kp) = false →
        update_reduce kp nnz ks eq buf
          = buf ++ [reduce_poly_dict (subs eq kp) nnz ks])
    ∧ (∀ eq2 : EqTup, subs eq2 kp = subs eq kp →
        update_reduce kp nnz ks eq2 buf = update_reduce kp nnz ks eq buf) := by
  refine ⟨?_, ?_, ?_⟩
  · intro h
    simp only [update_reduce, h, if_true]
  · intro h
    simp only [update_reduce, h, if_false, Bool.false_eq_true]
  · intro eq2 h
    simp only [update_reduce, h]

/-- Witness for C5: a concrete equation of the shape x squared minus 2,
with no recorded known values, takes the monic fast path. -/
theorem update_reduce_spec_witness :
    update_reduce (fun _ => none) (fun _ => true) (fun _ => none)
      [([2], (1 : ℚ)), ([0], -2)] []
      = [[([2], (1 : ℚ)), ([0], -2)]] := by
  have h := (update_reduce_spec (fun _ => none) (fun _ => true)
      (fun _ => none) [([2], (1 : ℚ)), ([0], -2)] []).1 (by decide)
  rw [h]
  simp [subs, addTerm, monResidual, monEval, to_monic, List.enum,
    List.enumFrom]

/-- Embedding of collect_eqns (lines 200 to 209 of the source): the drained
output (the deduplicated buffer with the empty tuple, the canonical zero
equation, discarded) together with the buffer state after the call, which
is reset to the empty list.  The proc argument is not used by the source
function. -/
def collect_eqns (proc : ℕ) (buf : List EqTup) : List EqTup × List EqTup :=
  ((buf.dedup).filter (fun e => decide (e ≠ [])), [])

/-- Claim C6: collect_eqns drains the buffer (the buffer is empty
afterwards), and its output consists exactly of the buffered results with
the canonical zero equation discarded; in particular the zero equation
never appears in the drained output. -/
theorem collect_eqns_drains (proc : ℕ) (buf : List EqTup) :
    (collect_eqns proc buf).2 = []
    ∧ ∀ e : EqTup, (e ∈ (collect_eqns proc buf).1 ↔ e ∈ buf ∧ e ≠ []) := by
  refine ⟨rfl, ?_⟩
  intro e
  simp [collect_eqns, List.mem_filter, List.mem_dedup]

/-- Witness for C6 at a concrete buffer holding the zero equation twice and
one nonzero equation: the new buffer is empty and the zero equation is not
in the drained output. -/
theorem collect_eqns_drains_witness :
    (collect_eqns 0 [[], [([2], (1 : ℚ))], []]).2 = []
    ∧ ¬(([] : EqTup) ∈ (collect_eqns 0 [[], [([2], (1 : ℚ))], []]).1) := by
  have h := collect_eqns_drains 0 [[], [([2], (1 : ℚ))], []]
  exact ⟨h.1, fun hc => ((h.2 []).1 hc).2 rfl⟩

/-- Claim C10: the drained output of collect_eqns is duplicate-free
(worker-side set semantics), and both the output and the buffer effect are
independent of the proc argument, which is ignored. -/
theorem collect_eqns_nodup_and_ignores_proc (p q : ℕ) (buf : List EqTup) :
    (collect_eqns p buf).1.Nodup ∧ collect_eqns p buf = collect_eqns q buf :=
  ⟨(List.nodup_dedup buf).filter _, rfl⟩

/-- Witness for C10 at a concrete buffer and two distinct proc values. -/
theorem collect_eqns_ignores_proc_witness :
    (collect_eqns 0 [[], []]).1.Nodup
    ∧ collect_eqns 0 [[], []] = collect_eqns 7 [[], []] :=
  collect_eqns_nodup_and_ignores_proc 0 7 [[], []]

/-- The worker-local shared structure as seen by update_child_fmats, with
one abstract field per attribute of the factory object: the sparse value
table _fvars, the solved record, the known-squares record _ks, the
variable-degree record _var_degs, the derived known-nonzero cache _nnz,
the derived known-powers cache _kp, and the remainder of the structure
(the fusion ring FR, the polynomial ring, and so on) bundled as FR. -/
structure FactoryState (Fv S K Vd N P Frt : Type) where
  fvars : Fv
  solved : S
  ks : K
  var_degs : Vd
  nnz : N
  kp : P
  FR : Frt

/-- Embedding of update_child_fmats (lines 184 to 189 of the source): the
four fields _fvars, solved, _ks, _var_degs are overwritten with the
components of data_tup, then _nnz is recomputed by the factory method
get_known_nonz (modelled from the spec as the abstract gkn, the sources of
the factory class being outside the verified module) on the updated state,
and _kp by compute_known_powers on _var_degs and get_known_vals (abstract
ckp and gkv) of the state updated further with the new _nnz. -/
def update_child_fmats {Fv S K Vd N P Frt KV : Type}
    (gkn : FactoryState Fv S K Vd N P Frt → N)
    (gkv : FactoryState Fv S K Vd N P Frt → KV)
    (ckp : Vd → KV → P)
    (st : FactoryState Fv S K Vd N P Frt)
    (data : Fv × S × K × Vd) : FactoryState Fv S K Vd N P Frt :=
  let st1 := { st with fvars := data.1, solved := data.2.1,
                       ks := data.2.2.1, var_degs := data.2.2.2 }
  let st2 := { st1 with nnz := gkn st1 }
  { st2 with kp := ckp st2.var_degs (gkv st2) }

/-- The state after the field-overwriting step of update_child_fmats: the
four supplied fields replaced, everything else untouched. -/
def overwritten {Fv S K Vd N P Frt : Type}
    (st : FactoryState Fv S K Vd N P Frt) (data : Fv × S × K × Vd) :
    FactoryState Fv S K Vd N P Frt :=
  { st with fvars := data.1, solved := data.2.1,
            ks := data.2.2.1, var_degs := data.2.2.2 }

/-- Claim C7 counterexample: the third component of the broadcast tuple is
written into the known-squares field _ks, a field the claim does not allow
to change (its supplied fields are fvars, solved, known-nonzero and
variable degrees, and its recomputed caches are the known-nonzero index
and the known-powers table).  At a concrete state whose fields are all 0
and a broadcast tuple (5, 6, 7, 8), the known-squares field changes from
0 to 7. -/
theorem update_child_fmats_cex :
    (update_child_fmats (fun _ => (0 : ℕ)) (fun _ => (0 : ℕ))
        (fun _ _ => (0 : ℕ))
        (⟨0, 0, 0, 0, 0, 0, 0⟩ : FactoryState ℕ ℕ ℕ ℕ ℕ ℕ ℕ)
        (5, 6, 7, 8)).ks
      ≠ (⟨0, 0, 0, 0, 0, 0, 0⟩ : FactoryState ℕ ℕ ℕ ℕ ℕ ℕ ℕ).ks := by
  decide

/-- Claim C7 as amended: update_child_fmats overwrites exactly the four
fields _fvars, solved, known-squares (_ks) and _var_degs with the supplied
values, then recomputes exactly the two derived caches: the known-nonzero
index _nnz from the overwritten state, and the known-powers table _kp from
the overwritten state carrying the new _nnz; every other part of the
structure is unchanged. -/
theorem update_child_fmats_frame {Fv S K Vd N P Frt KV : Type}
    (gkn : FactoryState Fv S K Vd N P Frt → N)
    (gkv : FactoryState Fv S K Vd N P Frt → KV)
    (ckp : Vd → KV → P)
    (st : FactoryState Fv S K Vd N P Frt) (data : Fv × S × K × Vd) :
    (update_child_fmats gkn gkv ckp st data).fvars = data.1
    ∧ (update_child_fmats gkn gkv ckp st data).solved = data.2.1
    ∧ (update_child_fmats gkn gkv ckp st data).ks = data.2.2.1
    ∧ (update_child_fmats gkn gkv ckp st data).var_degs = data.2.2.2
    ∧ (update_child_fmats gkn gkv ckp st data).FR = st.FR
    ∧ (update_child_fmats gkn gkv ckp st data).nnz
        = gkn (overwritten st data)
    ∧ (update_child_fmats gkn gkv ckp st data).kp
        = ckp data.2.2.2
            (gkv { overwritten st data with nnz := gkn (overwritten st data) }) :=
  ⟨rfl, rfl, rfl, rfl, rfl, rfl, rfl⟩

/-- The numeric pentagon deviation lhs - rhs computed by feq_verif (lines
215 to 228 of the source).  The C float arithmetic of the source is
modelled by exact rational arithmetic. -/
def pentDiff [DecidableEq α] (F : Factory α ℚ) (s : List α) : ℚ :=
  match s with
  | [a, b, c, d, e, f, g, k, l] =>
      fmat F f c d e g l * fmat F a b l e f k
        - F.basis.foldl
            (fun acc h => acc +
              fmat F a b c g f h * fmat F a h d e g k * fmat F b c d k h l) 0
  | _ => 0

/-- The declared default of the tol argument of feq_verif (line 215). -/
def feq_verif_default_tol : ℚ := 5 / 100000000

/-- Embedding of feq_verif: the deviation is appended to the worker results
buffer exactly when it exceeds the tolerance in either direction; the
function is total, it never fails. -/
def feq_verif [DecidableEq α] (F : Factory α ℚ) (s : List α) (tol : ℚ)
    (buf : List ℚ) : List ℚ :=
  let diff := pentDiff F s
  if diff > tol ∨ diff < -tol then buf ++ [diff] else buf

/-- Embedding of pent_verify (lines 234 to 247 of the source): run
feq_verif, with its default tolerance, on every assigned position of the
enumerated pentagon index space.  The progress printing of the source only
writes to standard output and is not modelled. -/
def pent_verify [DecidableEq α] (F : Factory α ℚ) (mp : ℕ × ℕ)
    (buf : List ℚ) : List ℚ :=
  ((tuples F.basis 9).enum).foldl
    (fun acc p =>
      if p.1 % mp.2 == mp.1 then feq_verif F p.2 feq_verif_default_tol acc
      else acc) buf

theorem feq_verif_append [DecidableEq α] (F : Factory α ℚ) (s : List α)
    (tol : ℚ) (buf : List ℚ) :
    feq_verif F s tol buf
      = buf ++ (if tol < |pentDiff F s| then [pentDiff F s] else []) := by
  have hiff : (pentDiff F s > tol ∨ pentDiff F s < -tol)
      ↔ tol < |pentDiff F s| := by
    rw [lt_abs, gt_iff_lt, lt_neg]
  simp only [feq_verif, hiff]
  by_cases h : tol < |pentDiff F s|
  · rw [if_pos h, if_pos h]
  · rw [if_neg h, if_neg h, List.append_nil]

/-- Claim C9: feq_verif appends the numeric deviation lhs - rhs to the
result buffer exactly when its absolute value exceeds the tolerance; the
verification pass pent_verify, which runs it with the default tolerance
5e-8 over all assigned pentagon positions, returns the original buffer
extended by exactly the deviations that exceed that tolerance - it is a
total function that records violations as data and never raises. -/
theorem pent_verify_records [DecidableEq α] (F : Factory α ℚ) (s : List α)
    (tol : ℚ) (c n : ℕ) (buf buf2 : List ℚ) :
    (feq_verif F s tol buf
        = if tol < |pentDiff F s| then buf ++ [pentDiff F s] else buf)
    ∧ pent_verify F (c, n) buf2
        = buf2 ++ ((((tuples F.basis 9).enum.filter
              (fun p => p.1 % n == c)).map (fun p => pentDiff F p.2)).filter
            (fun d => decide (feq_verif_default_tol < |d|)))
    ∧ feq_verif_default_tol = 5 / 100000000 := by
  refine ⟨?_, ?_, rfl⟩
  · rw [feq_verif_append]
    by_cases h : tol < |pentDiff F s|
    · rw [if_pos h, if_pos h]
    · rw [if_neg h, if_neg h, List.append_nil]
  · have key : ∀ (xs : List (ℕ × List α)) (acc : List ℚ),
        xs.foldl (fun acc p =>
            if p.1 % n == c then feq_verif F p.2 feq_verif_default_tol acc
            else acc) acc
          = acc ++ (((xs.filter (fun p => p.1 % n == c)).map
                (fun p => pentDiff F p.2)).filter
              (fun d => decide (feq_verif_default_tol < |d|))) := by
      intro xs
      induction xs with
      | nil => intro acc; simp
      | cons x xs ih =>
        intro acc
        rw [List.foldl_cons, List.filter_cons]
        by_cases hx : (x.1 % n == c) = true
        · rw [if_pos hx, hx, feq_verif_append, ih]
          by_cases hd : feq_verif_default_tol < |pentDiff F x.2|
          · simp [hd, List.append_assoc]
          · simp [hd]
        · rw [if_neg hx]
          simp only [Bool.not_eq_true] at hx
          rw [hx, ih]
          simp
    exact key ((tuples F.basis 9).enum) buf2

end FastFMats
